import Mathlib

/-!
Verification development for `algchess.py`, a rule algebra of board games.

Boards are Python dicts mapping integer coordinates to square contents
(Python strings).  We model a Python string as a `List Char`, and a dict
as an association list with unique keys, in insertion order; value
overwrite keeps the key's position, a new key is appended at the end,
matching CPython dict semantics.
-/

namespace AlgChess

abbrev Str := List Char
abbrev Loc := Int × Int
abbrev Board := List (Loc × Str)

/-- Python `board.get(k)`: value of the first entry with key `k`. -/
def dictGet (b : Board) (k : Loc) : Option Str :=
  match b with
  | [] => none
  | (k', v) :: es => if k' = k then some v else dictGet es k

/-- Python `board[k] = v`: replace in place if present, else append. -/
def dictInsert (b : Board) (k : Loc) (v : Str) : Board :=
  match b with
  | [] => [(k, v)]
  | (k', v') :: es => if k' = k then (k, v) :: es else (k', v') :: dictInsert es k v

/-- Python `delete(f, kk)` (source `delete`): pop each key of `kk` from the board. -/
def deleteLocs (b : Board) (kk : List Loc) : Board :=
  b.filter (fun e => decide (e.1 ∉ kk))

/-- Python `g.copy(); .update(f)` (source `replace`): fold the entries of `f`
into `g`, overwriting existing keys and appending new ones. -/
def pyUpdate (g f : Board) : Board :=
  f.foldl (fun acc e => dictInsert acc e.1 e.2) g

/-- Lexicographic order on board entries, used to canonicalise an entry set. -/
def entryLe (e1 e2 : Loc × Str) : Bool :=
  if e1.1.1 ≠ e2.1.1 then decide (e1.1.1 < e2.1.1)
  else if e1.1.2 ≠ e2.1.2 then decide (e1.1.2 < e2.1.2)
  else decide (e1.2 ≤ e2.2)

def insertLe (e : Loc × Str) : List (Loc × Str) → List (Loc × Str)
  | [] => [e]
  | x :: xs => if entryLe e x then e :: x :: xs else x :: insertLe e xs

/-- Python `get_board_key`: a `frozenset` of the dict's items.  We canonicalise
the entry set by sorting it, so two boards have equal keys iff they have equal
entry sets (entry lists coming from dicts have no duplicate keys). -/
def get_board_key (b : Board) : List (Loc × Str) :=
  b.foldr insertLe []

/-- Python `unique_boards`: keep the first board of each fingerprint. -/
def unique_boards (bs : List Board) : List Board :=
  (bs.foldl
    (fun (acc : List Board × List (List (Loc × Str))) b =>
      let k := get_board_key b
      if k ∈ acc.2 then acc else (acc.1 ++ [b], acc.2 ++ [k]))
    ([], [])).1

/-- One entry's contribution to the running `(min_x, min_y, max_x, max_y)`. -/
def boundsStep (acc : Int × Int × Int × Int) (e : Loc × Str) : Int × Int × Int × Int :=
  (min acc.1 e.1.1, min acc.2.1 e.1.2, max acc.2.2.1 e.1.1, max acc.2.2.2 e.1.2)

/-- Python `get_board_bounds`: `(min_x, min_y, max_x, max_y)`, and
`(0, 0, 0, 0)` for the empty board. -/
def get_board_bounds (b : Board) : Int × Int × Int × Int :=
  match b with
  | [] => (0, 0, 0, 0)
  | e :: es => es.foldl boundsStep (e.1.1, e.1.2, e.1.1, e.1.2)

/-- Python `replace_piece(p0, p1, board)`: replace every value equal to `p0`
by `p1`. -/
def replace_piece (p0 p1 : Str) (b : Board) : Board :=
  b.map (fun e => if e.2 = p0 then (e.1, p1) else e)

section Movement

/-- One element of `Movement.movements`: a translation tuple or a rotation
count (stored as a Python int, possibly negative). -/
inductive Atom : Type
  | slide (x y : Int)
  | rot (n : Int)
deriving DecidableEq, Repr

abbrev Movement := List Atom

/-- One 90-degree counter-clockwise rotation step of `Movement.__call__`;
with `square := true` the x-coordinate is decremented afterwards (board
squares are anchored at their bottom-left corner). -/
def rotStep (square : Bool) (p : Loc) : Loc :=
  if square then (-p.2 - 1, p.1) else (-p.2, p.1)

/-- `Movement.__call__` on a point (tuple branch).  A rotation atom `n`
performs `range(n)` rotation steps, so a negative count performs none. -/
def movePoint (square : Bool) (m : Movement) (p : Loc) : Loc :=
  m.foldl
    (fun q a =>
      match a with
      | .slide dx dy => (q.1 + dx, q.2 + dy)
      | .rot n => (rotStep square)^[n.toNat] q)
    p

/-- `Movement.__call__` on a board (dict branch): a fresh dict built from the
entries with keys moved under the square action. -/
def moveBoard (m : Movement) (b : Board) : Board :=
  b.foldl (fun acc e => dictInsert acc (movePoint true m e.1) e.2) []

/-- `Movement._reverse` on one atom. -/
def atomReverse : Atom → Atom
  | .slide x y => .slide (-x) (-y)
  | .rot n => .rot (-n)

/-- `Movement.__invert__`: negate each atom.  Note: the source does not
reverse the list of atoms. -/
def moveInvert (m : Movement) : Movement :=
  m.map atomReverse

/-- `Movement.identity()`. -/
def moveIdentity : Movement := []

/-- `Movement.slide(x, y)`. -/
def moveSlide (x y : Int) : Movement := [.slide x y]

/-- `Movement.rotate(r)`: the stored rotation count is `r % 4`. -/
def moveRotate (r : Int) : Movement := [.rot (r % 4)]

/-- Decimal representation of a Python int. -/
def intRepr (n : Int) : Str :=
  if n < 0 then '-' :: Nat.toDigits 10 (-n).toNat else Nat.toDigits 10 n.toNat

/-- The pieces contributed by one atom in `Movement.__str__`. -/
def atomStrParts : Atom → List Str
  | .slide x y =>
    (if x = 1 then [['r']]
     else if x = -1 then [['l']]
     else if x > 1 then [['r', '^'] ++ intRepr x]
     else if x < -1 then [['l', '^'] ++ intRepr (-x)]
     else []) ++
    (if y = 1 then [['u']]
     else if y = -1 then [['d']]
     else if y > 1 then [['u', '^'] ++ intRepr y]
     else if y < -1 then [['d', '^'] ++ intRepr (-y)]
     else [])
  | .rot n =>
    if n = 1 then [['R']]
    else if n ≠ 0 then [['R', '^'] ++ intRepr n]
    else []

def joinSep (sep : Str) : List Str → Str
  | [] => []
  | [s] => s
  | s :: ss => s ++ sep ++ joinSep sep ss

/-- `Movement.__str__`. -/
def moveStr (m : Movement) : Str :=
  let parts := (m.map atomStrParts).foldr (· ++ ·) []
  if parts = [] then ['1'] else joinSep [' '] parts

end Movement

section Repr

/-- Python `square_repr`. -/
def square_repr (c : Str) : Str :=
  if c.head? = some '^' then '[' :: '^' :: (c.tail ++ [']'])
  else if 1 < c.length then '[' :: (c ++ [']'])
  else c

/-- Integer range `[lo, lo + n)` as a list. -/
def intRange (lo : Int) (n : Nat) : List Int :=
  (List.range n).map (fun i => lo + (i : Int))

/-- Python `board_repr`: one line per row from `min_y` up, squares absent from
the board rendered as `r`, trailing `r` characters stripped from each line,
lines joined by `;`, and a movement prefix when the bounds do not start at the
origin. -/
def board_repr (f : Board) : Str :=
  if f = [] then ['0'] else
  let bd := get_board_bounds f
  let minX := bd.1
  let minY := bd.2.1
  let maxX := bd.2.2.1
  let maxY := bd.2.2.2
  let lines := (intRange minY (maxY - minY + 1).toNat).map (fun y =>
    let line := ((intRange minX (maxX - minX + 1).toNat).map (fun x =>
      square_repr ((dictGet f (x, y)).getD ['r']))).foldr (· ++ ·) []
    ((line.reverse.dropWhile (· = 'r')).reverse))
  let s := joinSep [';'] lines
  if minX ≠ 0 ∨ minY ≠ 0 then moveStr (moveSlide minX minY) ++ [' ', '*', ' '] ++ s
  else s

end Repr

section Match

/-- Is `v` a prefix of `c`? -/
def prefB : Str → Str → Bool
  | [], _ => true
  | _ :: _, [] => false
  | a :: as, b :: bs => a = b && prefB as bs

/-- Python `v in c` on strings: is `v` a contiguous substring of `c`? -/
def substrB (v c : Str) : Bool :=
  prefB v c ||
    (match c with
     | [] => false
     | _ :: cs => substrB v cs)

/-- The `'<notfound>'` sentinel used by `match` for absent squares. -/
def notfound : Str := ['<', 'n', 'o', 't', 'f', 'o', 'u', 'n', 'd', '>']

/-- Python `match(f, g, addx, addy)`: every entry `((x, y), c)` of `f` must
satisfy `(g.get((x+addx, y+addy), '<notfound>') in c) ^ (c[0] == '^')`. -/
def matchB (f g : Board) (addx addy : Int) : Bool :=
  f.all (fun e =>
    (substrB ((dictGet g (e.1.1 + addx, e.1.2 + addy)).getD notfound) e.2) !=
      (e.2.head? = some '^'))

/-- The anchor-selection loop of `find`.  The loop variable `k` is
reassigned on every iteration (including entries skipped by `continue`),
while `c` is only assigned from non-negated entries; the loop breaks at the
first single-character non-`'.'` entry. -/
def anchorLoop : List (Loc × Str) → Option Str → Loc → Option Str × Loc
  | [], c, k => (c, k)
  | (k', c') :: rest, c, _ =>
    if c'.head? = some '^' then anchorLoop rest c k'
    else if c'.length = 1 ∧ c' ≠ ['.'] then (some c', k')
    else anchorLoop rest (some c') k'

/-- The apostrophe character, written by code point to keep the error
message strings exactly as in the source. -/
def apos : Char := Char.ofNat 39

/-- The message of the `ValueError` raised by `find` on an empty pattern:
`Can't search for empty board`. -/
def errEmptyBoard : Str :=
  "Can".toList ++ [apos] ++ "t search for empty board".toList

/-- The prefix of the `ValueError` message raised by `find` when no anchor
entry exists: `Can't search for board: ` (followed by `board_repr f`). -/
def errNoAnchor : Str :=
  "Can".toList ++ [apos] ++ "t search for board: ".toList

/-- Python `find(f, g)`: movements at which `f` occurs inside `g`, or a
`ValueError` (modelled as `Except.error` carrying the message). -/
def find (f g : Board) : Except Str (List Movement) :=
  if f = [] then
    .error errEmptyBoard
  else
    match anchorLoop f none (0, 0) with
    | (none, _) =>
      .error (errNoAnchor ++ board_repr f)
    | (some c, k) =>
      .ok (g.filterMap (fun e =>
        if substrB e.2 c && matchB f g (e.1.1 - k.1) (e.1.2 - k.2)
        then some (moveSlide (e.1.1 - k.1) (e.1.2 - k.2))
        else none))

/-- Python `find_and_replace(f, g, h)`: for each movement found, delete the
translated pattern squares from a copy of `h` and write the translated
replacement over it. -/
def find_and_replace (f g h : Board) : Except Str (List Board) :=
  match find f h with
  | .error e => .error e
  | .ok ms =>
    .ok (ms.map (fun m =>
      pyUpdate (deleteLocs h (f.map (fun e => movePoint false m e.1))) (moveBoard m g)))

end Match

section RuleDef

/-- The rule tree: `FindAndReplaceRule` (pattern, replacement),
`OneOfRule`, `SequentialRule`, `PieceOfInterestRule` and `RepeatRule`
(`at_least`, `at_most` — `none` meaning infinity — and `greedy`). -/
inductive Rule : Type
  | fr (pattern replacement : Board)
  | oneOf (rules : List Rule)
  | seq (rules : List Rule)
  | poi (piece : Str) (rule : Rule)
  | rep (rule : Rule) (at_least : Int) (at_most : Option Int) (greedy : Bool)
deriving Repr

/-- Translate every key of a board by `-t`. -/
def translateBoard (b : Board) (t : Loc) : Board :=
  b.map (fun e => ((e.1.1 - t.1, e.1.2 - t.2), e.2))

/-- `FindAndReplaceRule.__init__` without `raw=True`: shift pattern and
replacement jointly by the componentwise minimum of their
`get_board_bounds` (the empty board contributing `(0, 0, 0, 0)`). -/
def mkFR (pattern replacement : Board) : Rule :=
  let pb := get_board_bounds pattern
  let rb := get_board_bounds replacement
  let minX := min pb.1 rb.1
  let minY := min pb.2.1 rb.2.1
  if minX ≠ 0 ∨ minY ≠ 0 then
    .fr (translateBoard pattern (minX, minY)) (translateBoard replacement (minX, minY))
  else
    .fr pattern replacement

/-- The pattern of a `FindAndReplaceRule` (junk on other constructors). -/
def patternOf : Rule → Board
  | .fr p _ => p
  | _ => []

/-- The replacement of a `FindAndReplaceRule` (junk on other constructors). -/
def replacementOf : Rule → Board
  | .fr _ r => r
  | _ => []

/-- The greedy flag of a `RepeatRule` (junk on other constructors). -/
def greedyOf : Rule → Bool
  | .rep _ _ _ g => g
  | _ => false

mutual
/-- `Movement.__call__` on a `Rule`, i.e. `Rule._distribute` for each rule
kind.  A geometric `Movement` applied to a string (the piece of a
`PieceOfInterestRule`) returns it unchanged.  Note: the source's
`RepeatRule._distribute` does not pass `greedy` through, so the distributed
repetition always gets the default `greedy=False`. -/
def distribute (m : Movement) : Rule → Rule
  | .fr p r => mkFR (moveBoard m p) (moveBoard m r)
  | .oneOf rs => .oneOf (distributeList m rs)
  | .seq rs => .seq (distributeList m rs)
  | .poi piece r => .poi piece (distribute m r)
  | .rep r lo hi _ => .rep (distribute m r) lo hi false

/-- Distribution mapped over a list of rules. -/
def distributeList (m : Movement) : List Rule → List Rule
  | [] => []
  | r :: rs => distribute m r :: distributeList m rs
end

mutual
/-- `Rule.__str__` for each rule kind. -/
def ruleStr : Rule → Str
  | .fr p r => board_repr p ++ [' ', '-', '>', ' '] ++ board_repr r
  | .oneOf rs =>
    if rs.isEmpty then ['n', 'i', 'l']
    else joinSep [' ', '|', ' '] (ruleStrParens rs)
  | .seq rs =>
    if rs.isEmpty then ['n', 'i', 'l']
    else (ruleStrParens rs).foldr (· ++ ·) []
  | .poi piece r => '%' :: (piece ++ [':', ' '] ++ ruleStr r)
  | .rep r lo hi _ =>
    let brackets :=
      if lo = 0 ∧ hi = none then ['*']
      else if lo = 1 ∧ hi = none then ['+']
      else
        let bp := intRepr lo
        let bp :=
          match hi with
          | none => bp ++ [',']
          | some m => if m ≠ lo then bp ++ [',', ' '] ++ intRepr m else bp
        '{' :: (bp ++ ['}'])
    '(' :: (ruleStr r ++ [')'] ++ brackets)

/-- The `(R1) (R2) ...` fragments used by `OneOfRule.__str__` and
`SequentialRule.__str__`. -/
def ruleStrParens : List Rule → List Str
  | [] => []
  | r :: rs => ('(' :: (ruleStr r ++ [')'])) :: ruleStrParens rs
end

end RuleDef

section Apply

/-- Filter newly-seen boards out of a batch, extending the seen-fingerprint
set as each new board is accepted (the inner `for` loop of
`RepeatRule._apply`). -/
def filterNew (keys : List (List (Loc × Str))) (bs : List Board) :
    List Board × List (List (Loc × Str)) :=
  bs.foldl
    (fun (acc : List Board × List (List (Loc × Str))) nb =>
      let k := get_board_key nb
      if k ∈ acc.2 then acc else (acc.1 ++ [nb], acc.2 ++ [k]))
    ([], keys)

/-- Error used when the evaluation fuel runs out; the Python source has no
such case (its `while` loop may simply run longer, or forever). -/
def errFuel : Str := "fuel".toList

mutual

/-- `Rule._apply` for each rule kind (one board in, list of boards out).
Fuel decreases on every nested call; the Python original is bounded
only by the fingerprint sets of its `Repeat` loops. -/
def applyR : Nat → Rule → Board → Except Str (List Board)
  | 0, _, _ => .error errFuel
  | _ + 1, .fr p r, b =>
    if p = [] ∧ r = [] then .ok [b] else find_and_replace p r b
  | fuel + 1, .oneOf rs, b => oneOfFold fuel rs b
  | fuel + 1, .seq rs, b => seqFold fuel rs [b]
  | fuel + 1, .poi piece r, b => (poiApplyState fuel piece r b).1
  | fuel + 1, .rep r lo hi g, b =>
    match iterN fuel r lo.toNat [b] with
    | .error e => .error e
    | .ok start =>
      match repeatLoop fuel r hi g lo start (start.map get_board_key) start with
      | .error e => .error e
      | .ok all => .ok (unique_boards all)

/-- `Rule.__call__` on a collection of boards: the unique boards of the
concatenation of `_apply` over each board. -/
def callR : Nat → Rule → List Board → Except Str (List Board)
  | 0, _, _ => .error errFuel
  | fuel + 1, r, bs =>
    match callRAux fuel r bs with
    | .error e => .error e
    | .ok out => .ok (unique_boards out)

def callRAux : Nat → Rule → List Board → Except Str (List Board)
  | 0, _, _ => .error errFuel
  | _ + 1, _, [] => .ok []
  | fuel + 1, r, b :: bs =>
    match applyR fuel r b with
    | .error e => .error e
    | .ok out =>
      match callRAux fuel r bs with
      | .error e => .error e
      | .ok rest => .ok (out ++ rest)

/-- `OneOfRule._apply`: extend with `rule(board)` for each subrule. -/
def oneOfFold : Nat → List Rule → Board → Except Str (List Board)
  | 0, _, _ => .error errFuel
  | _ + 1, [], _ => .ok []
  | fuel + 1, r :: rs, b =>
    match callR fuel r [b] with
    | .error e => .error e
    | .ok out =>
      match oneOfFold fuel rs b with
      | .error e => .error e
      | .ok rest => .ok (out ++ rest)

/-- `SequentialRule._apply`: left fold of `rule(boards)` over the subrules. -/
def seqFold : Nat → List Rule → List Board → Except Str (List Board)
  | 0, _, _ => .error errFuel
  | _ + 1, [], bs => .ok bs
  | fuel + 1, r :: rs, bs =>
    match callR fuel r bs with
    | .error e => .error e
    | .ok out => seqFold fuel rs out

/-- `PieceOfInterestRule._apply_at`: write `'%'` at the location, run the
inner rule, and restore the piece in a `finally` block.  The second
component is the final state of the board object passed in. -/
def poiApplyAt : Nat → Str → Rule → Board → Loc →
    Except Str (List Board) × Board
  | 0, piece, _, st, k =>
    (.error errFuel, dictInsert (dictInsert st k ['%']) k piece)
  | fuel + 1, piece, r, st, k =>
    let st1 := dictInsert st k ['%']
    let res := callR fuel r [st1]
    (res, dictInsert st1 k piece)

/-- The `for k in keys` loop of `PieceOfInterestRule._apply`, threading the
state of the board object (which `_apply_at` mutates and restores). -/
def poiFold : Nat → Str → Rule → List Loc → Board → List Board →
    Except Str (List Board) × Board
  | 0, _, _, _, st, _ => (.error errFuel, st)
  | _ + 1, _, _, [], st, acc => (.ok acc, st)
  | fuel + 1, piece, r, k :: ks, st, acc =>
    if dictGet st k = some piece then
      match poiApplyAt fuel piece r st k with
      | (.error e, st') => (.error e, st')
      | (.ok bs, st') =>
        poiFold fuel piece r ks st' (acc ++ bs.map (replace_piece ['%'] piece))
    else
      poiFold fuel piece r ks st acc

/-- `PieceOfInterestRule._apply` together with the final state of the board
object passed in. -/
def poiApplyState : Nat → Str → Rule → Board →
    Except Str (List Board) × Board
  | 0, _, _, b => (.error errFuel, b)
  | fuel + 1, piece, r, b =>
    if b.any (fun e => e.2 = ['%']) then (callR fuel r [b], b)
    else poiFold fuel piece r (b.map (·.1)) b []

/-- The first `for i in range(self.at_least)` loop of `RepeatRule._apply`. -/
def iterN : Nat → Rule → Nat → List Board → Except Str (List Board)
  | 0, _, _, _ => .error errFuel
  | _ + 1, _, 0, bs => .ok bs
  | fuel + 1, r, n + 1, bs =>
    match callR fuel r bs with
    | .error e => .error e
    | .ok out => iterN fuel r n out

/-- The `while True` loop of `RepeatRule._apply`: `boards` is the current
frontier, `keys` the seen fingerprints, `all` the accumulated result. -/
def repeatLoop : Nat → Rule → Option Int → Bool → Int → List Board →
    List (List (Loc × Str)) → List Board → Except Str (List Board)
  | 0, _, _, _, _, _, _, _ => .error errFuel
  | fuel + 1, r, hi, g, i, boards, keys, all =>
    if (hi.map (fun m => decide (m ≤ i))).getD false then .ok all
    else
      match callR fuel r boards with
      | .error e => .error e
      | .ok res =>
        let (newBoards, keys') := filterNew keys res
        if newBoards = [] then .ok all
        else
          repeatLoop fuel r hi g (i + 1) newBoards keys'
            (cond g newBoards (all ++ newBoards))

end

end Apply

section Frontier

/-- Concatenation of a list of board lists. -/
def catLists (ls : List (List Board)) : List Board :=
  ls.foldr (· ++ ·) []

/-- Modelled from the spec: the sequence of frontiers of `Repeat` from
iteration `i` on: each expansion step applies the body to the frontier and
keeps only the boards with newly-seen fingerprints; the sequence stops at
the `at_most` cap, or when no new boards appear. -/
def frontierSeq : Nat → Rule → Option Int → Int → List Board →
    List (List (Loc × Str)) → Except Str (List (List Board))
  | 0, _, _, _, _, _ => .error errFuel
  | fuel + 1, r, hi, i, frontier, seen =>
    if (hi.map (fun m => decide (m ≤ i))).getD false then .ok [frontier]
    else
      match callR fuel r frontier with
      | .error e => .error e
      | .ok res =>
        let (newBoards, seen') := filterNew seen res
        if newBoards = [] then .ok [frontier]
        else
          match frontierSeq fuel r hi (i + 1) newBoards seen' with
          | .error e => .error e
          | .ok fs => .ok (frontier :: fs)

end Frontier

section Parsing

/-- Python `str.split(sep)` for a single separator character. -/
def splitOnChar (sep : Char) : Str → List Str
  | [] => [[]]
  | c :: rest =>
    match splitOnChar sep rest with
    | [] => [[]]
    | s :: ss => if c = sep then [] :: s :: ss else (c :: s) :: ss

/-- Python `str.strip()`. -/
def pyStrip (s : Str) : Str :=
  ((s.dropWhile Char.isWhitespace).reverse.dropWhile Char.isWhitespace).reverse

/-- Python `str.strip(chars)`. -/
def stripSet (chars : List Char) (s : Str) : Str :=
  ((s.dropWhile (· ∈ chars)).reverse.dropWhile (· ∈ chars)).reverse

def natOfDigits (ds : Str) : Nat :=
  ds.foldl (fun a d => a * 10 + (d.toNat - '0'.toNat)) 0

/-- Python `int(s)`: optional whitespace, optional sign, digits. -/
def pyInt (s : Str) : Except Str Int :=
  let t := pyStrip s
  match t with
  | '-' :: ds =>
    if !ds.isEmpty && ds.all Char.isDigit then .ok (-(natOfDigits ds : Int))
    else .error "invalid literal for int".toList
  | '+' :: ds =>
    if !ds.isEmpty && ds.all Char.isDigit then .ok (natOfDigits ds : Int)
    else .error "invalid literal for int".toList
  | ds =>
    if !ds.isEmpty && ds.all Char.isDigit then .ok (natOfDigits ds : Int)
    else .error "invalid literal for int".toList

/-- Letters matched by the movement regex `[udlrR](?:\^-?\d+)?`. -/
def isMovChar (c : Char) : Bool :=
  c = 'u' || c = 'd' || c = 'l' || c = 'r' || c = 'R'

/-- `re.findall` for the movement regex: a movement letter with an optional
signed exponent after `^`. -/
def movScan : Nat → Str → List (Char × Option Int)
  | 0, _ => []
  | _ + 1, [] => []
  | fuel + 1, c :: rest =>
    if isMovChar c then
      match rest with
      | '^' :: rest2 =>
        let (neg, rest3) :=
          match rest2 with
          | '-' :: r3 => (true, r3)
          | _ => (false, rest2)
        let ds := rest3.takeWhile Char.isDigit
        if ds.isEmpty then (c, none) :: movScan fuel rest
        else
          (c, some (if neg then -(natOfDigits ds : Int) else (natOfDigits ds : Int))) ::
            movScan fuel (rest3.drop ds.length)
      | _ => (c, none) :: movScan fuel rest
    else movScan fuel rest

/-- Python `parse_movement`: build the atom list from the scanned parts.
A part with exponent `0` is skipped; rotation counts are reduced mod 4 and
dropped when zero. -/
def parse_movement (text : Str) : Movement :=
  (movScan (text.length + 1) text).foldl
    (fun mm p =>
      let c := p.1
      let n : Int :=
        match p.2 with
        | some n => n
        | none => 1
      if p.2 = some 0 then mm
      else if c = 'u' then mm ++ [.slide 0 n]
      else if c = 'd' then mm ++ [.slide 0 (-n)]
      else if c = 'l' then mm ++ [.slide (-n) 0]
      else if c = 'r' then mm ++ [.slide n 0]
      else
        let n := n % 4
        if n = 0 then mm else mm ++ [.rot n])
    []

/-- The character-consuming loop of `parse_board` on a string: spaces and
`1` are skipped, `[...]` reads a class, `;` starts a new row, `u d l r 0`
move the cursor, anything else is written at the cursor. -/
def parseBoardLoop : Nat → Str → Int → Int → Int → Board → Board
  | 0, _, _, _, _, f => f
  | _ + 1, [], _, _, _, f => f
  | fuel + 1, c :: rest, x0, x, y, f =>
    if c = ' ' || c = '1' then parseBoardLoop fuel rest x0 x y f
    else if c = '[' then
      let cc := rest.takeWhile (fun ch => decide (ch ≠ ']'))
      parseBoardLoop fuel (rest.drop (cc.length + 1)) x0 (x + 1) y (dictInsert f (x, y) cc)
    else if c = ';' then parseBoardLoop fuel rest x0 x0 (y + 1) f
    else if c = 'u' then parseBoardLoop fuel rest x0 x (y + 1) f
    else if c = 'd' then parseBoardLoop fuel rest x0 x (y - 1) f
    else if c = 'l' then parseBoardLoop fuel rest x0 (x - 1) y f
    else if c = 'r' then parseBoardLoop fuel rest x0 (x + 1) y f
    else if c = '0' then parseBoardLoop fuel rest x0 (x + 1) y f
    else parseBoardLoop fuel rest x0 (x + 1) y (dictInsert f (x, y) [c])

/-- Python `parse_board` on a string: an optional `<movement> * ` prefix
offsets the origin, then the cursor walk builds the board. -/
def parse_board (text : Str) (x0 y0 : Int) : Board :=
  if text.any (· = '*') then
    let parts := splitOnChar '*' text
    let body := parts.getLastD []
    let mText := (parts.dropLast).foldr (· ++ ·) []
    let p := movePoint false (parse_movement mText) (x0, y0)
    parseBoardLoop (body.length + 1) body p.1 p.1 p.2 []
  else
    parseBoardLoop (text.length + 1) text x0 x0 y0 []

/-- The class `[udlrR^0-9 *-]` of the last tokenizer alternative. -/
def isAChar (c : Char) : Bool :=
  c = 'u' || c = 'd' || c = 'l' || c = 'r' || c = 'R' || c = '^' ||
    c.isDigit || c = ' ' || c = '*' || c = '-'

/-- The negated class at the end of the last tokenizer alternative:
everything except `( ) \x7b \x7d | * + : - >`. -/
def isBChar (c : Char) : Bool :=
  !(c = '(' || c = ')' || c = '{' || c = '}' || c = '|' || c = '*' ||
    c = '+' || c = ':' || c = '-' || c = '>')

/-- The last tokenizer alternative `(?:[udlrR^0-9 *-]*)?[^(){}|*+:\->]+`:
the longest run of A-characters whose following character is a B-character
(regex backtracking), then the maximal run of B-characters. -/
def alt5 (cs : Str) : Option (Str × Str) :=
  let aLen := (cs.takeWhile isAChar).length
  match (List.range (aLen + 1)).reverse.find? (fun j =>
      match (cs.drop j).head? with
      | some ch => isBChar ch
      | none => false) with
  | none => none
  | some j =>
    let bRun := (cs.drop j).takeWhile isBChar
    some (cs.take j ++ bRun, cs.drop (j + bRun.length))

/-- One step of `re.findall` with `RULE_TOKEN_REGEX`: try the alternatives
`[()|*+]`, `%.:`, `->`, and the lazy `\x7b.*?\x7d`, in this order, then
`alt5`; `none` means no alternative matches at this position. -/
def nextToken (cs : Str) : Option (Str × Str) :=
  match cs with
  | [] => none
  | c :: rest =>
    if c = '(' || c = ')' || c = '|' || c = '*' || c = '+' then some ([c], rest)
    else if c = '%' then
      match rest with
      | a :: ':' :: rest2 => some (['%', a, ':'], rest2)
      | _ => alt5 cs
    else if c = '-' then
      match rest with
      | '>' :: rest2 => some (['-', '>'], rest2)
      | _ => alt5 cs
    else if c = '{' then
      let inner := rest.takeWhile (fun ch => decide (ch ≠ '}'))
      if inner.length < rest.length then
        some ('{' :: (inner ++ ['}']), rest.drop (inner.length + 1))
      else alt5 cs
    else alt5 cs

/-- `re.findall` scanning: emit a token when some alternative matches,
otherwise advance one character. -/
def tokenizeLoop : Nat → Str → List Str
  | 0, _ => []
  | _ + 1, [] => []
  | fuel + 1, c :: rest =>
    match nextToken (c :: rest) with
    | some (tok, rest') => tok :: tokenizeLoop fuel rest'
    | none => tokenizeLoop fuel rest

/-- The token list of `parse_rule`: regex findall, then drop tokens that are
whitespace-only. -/
def tokenizeRule (text : Str) : List Str :=
  (tokenizeLoop (text.length + 1) text).filter (fun t => !(pyStrip t).isEmpty)

/-- `Rule.__mul__` / `SequentialRule.__mul__` as used by `rule *= rhs`. -/
def pyMulRule (a b : Rule) : Rule :=
  match a, b with
  | .seq rs, .seq rs2 => .seq (rs ++ rs2)
  | .seq rs, _ => .seq (rs ++ [b])
  | _, .seq rs2 => .seq (a :: rs2)
  | _, _ => .seq [a, b]

/-- `Rule.__or__` / `OneOfRule.__or__` as used by `rule |= rhs`. -/
def pyOrRule (a b : Rule) : Rule :=
  match a, b with
  | .oneOf rs, .oneOf rs2 => .oneOf (rs ++ rs2)
  | .oneOf rs, _ => .oneOf (rs ++ [b])
  | _, .oneOf rs2 => .oneOf (a :: rs2)
  | _, _ => .oneOf [a, b]

/-- The `RepeatRule` constructor: raises `TypeError` when
`at_most < at_least`. -/
def mkRepeat (r : Rule) (lo : Int) (hi : Option Int) (g : Bool) :
    Except Str Rule :=
  match hi with
  | some m => if m < lo then .error "Invalid args".toList else .ok (.rep r lo hi g)
  | none => .ok (.rep r lo none g)

/-- The token stream state of `parse_rule`. -/
structure PState where
  tokens : List Str
  pos : Nat
deriving Repr

/-- `get_token`: `none` past the end (without advancing), else the token at
the cursor, advancing it. -/
def getTok (st : PState) : Option Str × PState :=
  match st.tokens.get? st.pos with
  | none => (none, st)
  | some t => (some t, { tokens := st.tokens, pos := st.pos + 1 })

/-- `unget`: move the cursor back one token. -/
def ungetTok (st : PState) : PState :=
  { tokens := st.tokens, pos := st.pos - 1 }

/-- `expect`: consume one token and require it to be the expected one. -/
def expectTok (st : PState) (expected : Str) : Except Str PState :=
  match getTok st with
  | (some t, st') =>
    if t = expected then .ok st' else .error "Expected token mismatch".toList
  | (none, _) => .error "Expected token mismatch".toList

mutual

/-- The recursive `_parse` step of `parse_rule`: an atom (parenthesised
rule, `%c:` scope, or `board -> board`), an optional repetition suffix, and
— unless `no_binops` — the binary-operator loop. -/
def parseRuleAux : Nat → Bool → PState → Except Str (Rule × PState)
  | 0, _, _ => .error errFuel
  | fuel + 1, noBinops, st =>
    let atomRes : Except Str (Rule × PState) :=
      match getTok st with
      | (none, _) => .error "Unexpected end of string".toList
      | (some t, st1) =>
        if t = ['('] then
          match parseRuleAux fuel false st1 with
          | .error e => .error e
          | .ok (r, st2) =>
            match expectTok st2 [')'] with
            | .error e => .error e
            | .ok st3 => .ok (r, st3)
        else
          match t with
          | ['%', p, ':'] =>
            match parseRuleAux fuel false st1 with
            | .error e => .error e
            | .ok (r, st2) => .ok (.poi [p] r, st2)
          | _ =>
            let boardLeft := parse_board t 0 0
            match getTok st1 with
            | (some arrow, st2) =>
              if arrow = ['-', '>'] then
                let (t2, st3) := getTok st2
                let boardRight := parse_board (t2.getD []) 0 0
                .ok (mkFR boardLeft boardRight, st3)
              else .error "Expected arrow".toList
            | (none, _) => .error "Expected arrow".toList
    match atomRes with
    | .error e => .error e
    | .ok (rule0, stA) =>
      let sufRes : Except Str (Rule × PState) :=
        match getTok stA with
        | (none, stB) => .ok (rule0, stB)
        | (some s, stB) =>
          if s = ['?'] then
            match mkRepeat rule0 0 (some 1) false with
            | .error e => .error e
            | .ok r => .ok (r, stB)
          else if s = ['*'] then .ok (.rep rule0 0 none false, stB)
          else if s = ['+'] then .ok (.rep rule0 1 none false, stB)
          else if s.head? = some '{' then
            let inner := stripSet ['{', '}'] s
            if inner.any (· = ',') then
              match splitOnChar ',' inner with
              | [lhs, rhs] =>
                match pyInt lhs with
                | .error e => .error e
                | .ok n =>
                  if (pyStrip rhs).isEmpty then
                    match mkRepeat rule0 n none false with
                    | .error e => .error e
                    | .ok r => .ok (r, stB)
                  else
                    match pyInt rhs with
                    | .error e => .error e
                    | .ok m =>
                      match mkRepeat rule0 n (some m) false with
                      | .error e => .error e
                      | .ok r => .ok (r, stB)
              | _ => .error "unpack".toList
            else
              match pyInt inner with
              | .error e => .error e
              | .ok n =>
                match mkRepeat rule0 n (some n) false with
                | .error e => .error e
                | .ok r => .ok (r, stB)
          else .ok (rule0, ungetTok stB)
      match sufRes with
      | .error e => .error e
      | .ok (rule1, stC) =>
        if noBinops then .ok (rule1, stC)
        else binopLoop fuel rule1 stC

/-- The binary-operator loops at the end of `_parse`: `(`-tokens build a
`SequentialRule` via `rule *= rhs`, `|` builds a `OneOfRule` via
`rule |= rhs`, `)` and end of input return; any other token makes the
Python function fall through and return `None`, modelled as an error. -/
def binopLoop : Nat → Rule → PState → Except Str (Rule × PState)
  | 0, _, _ => .error errFuel
  | fuel + 1, rule, st =>
    let (t, st2) := getTok st
    match t with
    | none => .ok (rule, st2)
    | some tok =>
      if tok = [')'] then .ok (rule, ungetTok st2)
      else if tok = ['('] then
        match parseRuleAux fuel true st2 with
        | .error e => .error e
        | .ok (rhs, st3) =>
          match expectTok st3 [')'] with
          | .error e => .error e
          | .ok st4 => binopLoop fuel (pyMulRule rule rhs) st4
      else if tok = ['|'] then
        match parseRuleAux fuel true st2 with
        | .error e => .error e
        | .ok (rhs, st3) => binopLoop fuel (pyOrRule rule rhs) st3
      else .error "parse step returned None".toList

end

/-- Python `parse_rule`: tokenize and run the recursive parse from the
first token. -/
def parse_rule (text : Str) : Except Str Rule :=
  let tokens := tokenizeRule text
  match parseRuleAux (tokens.length * 4 + 8) false ⟨tokens, 0⟩ with
  | .error e => .error e
  | .ok (r, _) => .ok r

end Parsing

section ClaimData

/-- Modelled from the spec: the acceptance relation of one square class, as
the specification describes it — a positive class accepts exactly its listed
characters (`.` matching only itself) and rejects absence; a negated class
`^c1…ck` accepts every character not among `c1…ck` and also accepts
absence. -/
def specAccepts (spec : Str) (sq : Option Str) : Bool :=
  if spec.head? = some '^' then
    match sq with
    | none => true
    | some [v] => decide (v ∉ spec.tail)
    | some _ => false
  else
    match sq with
    | some [v] => decide (v ∈ spec)
    | _ => false

/-- Modelled from the spec: pattern `p` matches board `b` at `(dx, dy)` iff
every entry of `p` accepts the square of `b` at the translated location (or
its absence). -/
def specMatch (p b : Board) (dx dy : Int) : Bool :=
  p.all (fun e => specAccepts e.2 (dictGet b (e.1.1 + dx, e.1.2 + dy)))

/-- Is every board of `as` present (by fingerprint) in `bs`? -/
def boardSetSub (as bs : List Board) : Bool :=
  as.all (fun a => decide (get_board_key a ∈ bs.map get_board_key))

/-- The boards of a successful application, `none` when it raised. -/
def okBoards (x : Except Str (List Board)) : Option (List Board) :=
  match x with
  | .error _ => none
  | .ok bs => some bs

/-- Equality, as sets of boards, of two rule-application results. -/
def sameBoardSet (x y : Except Str (List Board)) : Bool :=
  match x, y with
  | .ok as, .ok bs => boardSetSub as bs && boardSetSub bs as
  | .error _, .error _ => true
  | _, _ => false

/-- The basic pawn move of the module docstring:
`FindAndReplaceRule(parse_board(['.', 'p']), parse_board(['p', '.']))`. -/
def pawnFR : Rule :=
  mkFR [((0, 0), ['p']), ((0, 1), ['.'])] [((0, 0), ['.']), ((0, 1), ['p'])]

/-- A one-column board with a pawn under two empty squares. -/
def colBoard3 : Board := [((0, 0), ['p']), ((0, 1), ['.']), ((0, 2), ['.'])]

/-- A greedy unbounded repetition of the pawn move:
`pawn_move_rule.zero_or_more(greedy=True)`. -/
def greedyPawnRep : Rule := .rep pawnFR 0 none true

/-- A rule sliding a piece `A` one square to the right. -/
def aRule : Rule :=
  .fr [((0, 0), ['A']), ((1, 0), ['.'])] [((0, 0), ['.']), ((1, 0), ['A'])]

/-- A one-row board with an `A` and two empty squares to its right. -/
def rowBoard3 : Board := [((0, 0), ['A']), ((1, 0), ['.']), ((2, 0), ['.'])]

end ClaimData

section ConcreteClaims

/-- C1: the round-trip contract `parse_rule(str(R))(b) == R(b)` fails for
repetitions constructed with `greedy=True`: the printed form of
`pawn_move_rule.zero_or_more(greedy=True)` is `(p;. -> .;p)*`, which parses
back to a non-greedy repetition, so on a one-column board the reparsed rule
returns every intermediate position while the original returns only the
final one. -/
theorem c1_roundtrip_loses_greedy :
    parse_rule (ruleStr greedyPawnRep) = .ok (.rep pawnFR 0 none false) ∧
    (match parse_rule (ruleStr greedyPawnRep) with
     | .ok r => sameBoardSet (callR 30 r [colBoard3]) (callR 30 greedyPawnRep [colBoard3])
     | .error _ => true) = false := by
  exact ⟨by rfl, by rfl⟩

/-- C2: distribution does not commute with evaluation: already for the
identity movement, `(m·R)(m·b)` differs as a set of boards from
`m · R(b)` when `R` is a greedy repetition, because
`RepeatRule._distribute` drops the greedy flag. -/
theorem c2_distribution_not_commute :
    sameBoardSet
      (callR 30 (distribute moveIdentity greedyPawnRep) [moveBoard moveIdentity colBoard3])
      ((callR 30 greedyPawnRep [colBoard3]).map (fun bs => bs.map (moveBoard moveIdentity)))
      = false := by
  rfl

/-- C3: `RepeatRule._distribute` does not preserve the greedy flag: the
distributed repetition keeps `at_least` and `at_most` but always gets
`greedy=False`, so distributing the identity movement over a greedy
repetition yields a non-greedy one. -/
theorem c3_distribute_drops_greedy :
    distribute moveIdentity (.rep pawnFR 1 (some 3) true) = .rep pawnFR 1 (some 3) false ∧
    greedyOf (.rep pawnFR 1 (some 3) true) = true ∧
    greedyOf (distribute moveIdentity (.rep pawnFR 1 (some 3) true)) = false ∧
    distribute moveIdentity (.rep pawnFR 1 (some 3) true) ≠ .rep pawnFR 1 (some 3) true := by
  refine ⟨rfl, rfl, rfl, fun h => ?_⟩
  exact absurd (congrArg greedyOf h) (by decide)

/-- C5: `find` does not return all offsets at which the pattern matches: the
anchor key is the key of the last iterated pattern entry while the anchor
content is the last non-negated one, so for the pattern `{(0,0): '.',
(0,1): '^x'}` and the board `{(0,0): '.'}` it returns no offsets although
the pattern matches at `(0, 0)`.  The no-anchor error message is also
`Can't search for board: …`, not the `can't search without a positive
anchor` the specification quotes. -/
theorem c5_find_misses_match :
    find [((0, 0), ['.']), ((0, 1), ['^', 'x'])] [((0, 0), ['.'])] = .ok [] ∧
    matchB [((0, 0), ['.']), ((0, 1), ['^', 'x'])] [((0, 0), ['.'])] 0 0 = true ∧
    find [((0, 0), ['^', 'x'])] [((0, 0), ['a'])] =
      .error (errNoAnchor ++ "[^x]".toList) := by
  exact ⟨by rfl, by rfl, by rfl⟩

/-- C6: `~m` is not the reverse-and-negate inverse the specification
describes: `Movement.__invert__` negates the atoms without reversing their
order, and `Movement.__call__` performs `range(n)` rotation steps so a
negated rotation count acts as no rotation at all; hence `~m(m(q)) ≠ q`
already for a single quarter turn. -/
theorem c6_invert_not_inverse :
    movePoint false (moveInvert (moveRotate 1))
        (movePoint false (moveRotate 1) ((1 : Int), (0 : Int))) ≠ ((1 : Int), (0 : Int)) ∧
    moveInvert [Atom.slide 1 0, Atom.rot 1] ≠ [Atom.rot (-1), Atom.slide (-1) 0] := by
  exact ⟨by decide, by decide⟩

/-- C7: `Movement.rotate(4)` acts as the identity on points and boards, but
not on every rule: distributing it over a greedy repetition drops the
greedy flag, so the distributed rule returns a different set of boards. -/
theorem c7_rotate4_not_identity_on_rules :
    movePoint false (moveRotate 4) ((3 : Int), (7 : Int)) = ((3 : Int), (7 : Int)) ∧
    moveBoard (moveRotate 4) rowBoard3 = rowBoard3 ∧
    sameBoardSet
      (callR 30 (distribute (moveRotate 4) (.rep aRule 0 none true)) [rowBoard3])
      (callR 30 (.rep aRule 0 none true) [rowBoard3]) = false := by
  exact ⟨by rfl, by rfl, by rfl⟩

/-- C4 counterexample: the claim's acceptance relation disagrees with
`match` on the board square `'^'`: the pattern `{(0,0): '^a'}` does not
match the board `{(0,0): '^'}` in the code (Python substring membership
counts the leading caret among the negated characters), while by the
claim's description the negated class `^a` accepts `'^'`, which is not
among its listed characters. -/
theorem c4_counterexample :
    matchB [((0, 0), ['^', 'a'])] [((0, 0), ['^'])] 0 0 = false ∧
    specMatch [((0, 0), ['^', 'a'])] [((0, 0), ['^'])] 0 0 = true := by
  exact ⟨by rfl, by rfl⟩

/-- C10 counterexample: with an empty replacement the constructor does not
translate the rule so that the combined bounding box starts at the origin:
`FindAndReplaceRule({(5,5): 'p'}, {})` keeps its pattern at `(5, 5)`,
because the empty replacement contributes `(0, 0, 0, 0)` to the minimum of
the bounds. -/
theorem c10_counterexample :
    mkFR [((5, 5), ['p'])] [] = .fr [((5, 5), ['p'])] [] ∧
    (get_board_bounds (patternOf (mkFR [((5, 5), ['p'])] []) ++
        replacementOf (mkFR [((5, 5), ['p'])] []))).1 ≠ 0 := by
  refine ⟨rfl, ?_⟩
  decide

end ConcreteClaims

section PoiRestore

theorem dictInsert_cancel (b : Board) (k : Loc) (v w : Str)
    (h : dictGet b k = some v) : dictInsert (dictInsert b k w) k v = b := by
  induction b with
  | nil => simp [dictGet] at h
  | cons e es ih =>
    obtain ⟨k', v'⟩ := e
    by_cases hk : k' = k
    · subst hk
      simp [dictGet] at h
      simp [dictInsert, h]
    · simp [dictGet, hk] at h
      simp [dictInsert, hk, ih h]

theorem poiApplyAt_state (fuel : Nat) (piece : Str) (r : Rule) (st : Board) (k : Loc) :
    (poiApplyAt fuel piece r st k).2 = dictInsert (dictInsert st k ['%']) k piece := by
  cases fuel with
  | zero => rfl
  | succ n => rfl

theorem poiFold_state (piece : Str) (r : Rule) (b : Board) :
    ∀ (fuel : Nat) (ks : List Loc) (acc : List Board),
      (poiFold fuel piece r ks b acc).2 = b := by
  intro fuel
  induction fuel with
  | zero => intro ks acc; rfl
  | succ n ih =>
    intro ks acc
    cases ks with
    | nil => rfl
    | cons k ks =>
      show (poiFold (n + 1) piece r (k :: ks) b acc).2 = b
      rw [poiFold]
      by_cases hk : dictGet b k = some piece
      · have hst : (poiApplyAt n piece r b k).2 = b := by
          rw [poiApplyAt_state, dictInsert_cancel b k piece ['%'] hk]
        rw [if_pos hk]
        rcases hres : poiApplyAt n piece r b k with ⟨res, st'⟩
        rw [hres] at hst
        cases res with
        | error e => exact hst
        | ok bs =>
          rw [show st' = b from hst]
          exact ih ks (acc ++ bs.map (replace_piece ['%'] piece))
      · rw [if_neg hk]
        exact ih ks acc

/-- C9: `PieceOfInterestRule._apply` leaves the board object it is given
unchanged on every exit path: the only writes to the passed-in board are
`board[location] = '%'` in `_apply_at` and the `finally`-restore
`board[location] = self.piece`, performed only at locations whose content
is `self.piece`, so the final state of the board equals its initial state
whether the inner rule returns or raises (every other rule path operates
on copies). -/
theorem c9_poi_restores_board (fuel : Nat) (piece : Str) (r : Rule) (b : Board) :
    (poiApplyState fuel piece r b).2 = b := by
  cases fuel with
  | zero => rfl
  | succ n =>
    show (poiApplyState (n + 1) piece r b).2 = b
    rw [poiApplyState]
    by_cases h : b.any (fun e => e.2 = ['%'])
    · simp [h]
    · simp only [h]
      exact poiFold_state piece r b n (b.map (·.1)) []

end PoiRestore

section MatchSpec

theorem substrB_singleton (v : Char) (c : Str) : substrB [v] c = decide (v ∈ c) := by
  induction c with
  | nil => rfl
  | cons a cs ih =>
    by_cases h : v = a
    · subst h
      simp [substrB, prefB]
    · simp [substrB, prefB, h, ih]

theorem dictGet_mem (b : Board) (k : Loc) (s : Str) (h : dictGet b k = some s) :
    (k, s) ∈ b := by
  induction b with
  | nil => simp [dictGet] at h
  | cons e es ih =>
    obtain ⟨k', v'⟩ := e
    by_cases hk : k' = k
    · subst hk
      simp [dictGet] at h
      simp [h]
    · simp [dictGet, hk] at h
      exact List.mem_cons_of_mem _ (ih h)

theorem accepts_pointwise (c : Str) (sq : Option Str)
    (hc1 : c ≠ []) (hc2 : substrB notfound c = false)
    (hsq : ∀ s, sq = some s → ∃ v, s = [v] ∧ v ≠ '^') :
    ((substrB ((sq.getD notfound)) c) != decide (c.head? = some '^')) = specAccepts c sq := by
  cases c with
  | nil => exact absurd rfl hc1
  | cons c0 cs =>
    by_cases hneg : c0 = '^'
    · subst hneg
      cases sq with
      | none => simp [specAccepts, Option.getD, hc2]
      | some s =>
        obtain ⟨v, hs, hv⟩ := hsq s rfl
        subst hs
        simp [specAccepts, Option.getD, substrB_singleton, List.mem_cons, hv]
    · cases sq with
      | none =>
        simp [specAccepts, Option.getD, hc2, List.head?, hneg]
      | some s =>
        obtain ⟨v, hs, hv⟩ := hsq s rfl
        subst hs
        simp [specAccepts, Option.getD, substrB_singleton, List.head?, hneg]

/-- C4 (amended): for patterns whose square classes are non-empty and do not
contain the sentinel substring `<notfound>`, and boards whose contents are
single characters other than `^` (as concrete boards are), `match` agrees
with the specification's acceptance relation: the pattern matches at
`(dx, dy)` iff every entry accepts the corresponding square or its absence,
a negated class also rejecting the caret character itself. -/
theorem c4_match_matches_spec (p b : Board) (dx dy : Int)
    (hp : ∀ e ∈ p, e.2 ≠ [] ∧ substrB notfound e.2 = false)
    (hb : ∀ e ∈ b, e.2.length = 1 ∧ e.2.head? ≠ some '^') :
    matchB p b dx dy = specMatch p b dx dy := by
  induction p with
  | nil => rfl
  | cons e es ih =>
    have he := hp e (List.mem_cons_self e es)
    have hrec := ih (fun x hx => hp x (List.mem_cons_of_mem e hx))
    have hsq : ∀ s, dictGet b (e.1.1 + dx, e.1.2 + dy) = some s →
        ∃ v, s = [v] ∧ v ≠ '^' := by
      intro s hs
      have hmem := dictGet_mem b _ s hs
      have hb' := hb _ hmem
      cases s with
      | nil => simp at hb'
      | cons v rest =>
        cases rest with
        | nil =>
          refine ⟨v, rfl, ?_⟩
          intro hv
          subst hv
          simp [List.head?] at hb'
        | cons w rest2 => simp at hb'
    show (_ && _) = (_ && _)
    exact congrArg₂ (· && ·) (accepts_pointwise e.2 _ he.1 he.2 hsq) hrec

/-- Witness for the amended C4 at a concrete pattern and board. -/
theorem c4_match_matches_spec_witness :
    matchB [((0, 0), ['.', 'K']), ((1, 0), ['^', 'q'])] [((0, 0), ['K'])] 0 0 =
      specMatch [((0, 0), ['.', 'K']), ((1, 0), ['^', 'q'])] [((0, 0), ['K'])] 0 0 :=
  c4_match_matches_spec _ _ 0 0 (by decide) (by decide)

end MatchSpec

section RepeatSemantics

theorem frontierSeq_cons (fuel : Nat) (r : Rule) (hi : Option Int) (i : Int)
    (fr : List Board) (seen : List (List (Loc × Str))) (fs : List (List Board))
    (h : frontierSeq fuel r hi i fr seen = .ok fs) : ∃ fs', fs = fr :: fs' := by
  cases fuel with
  | zero => simp [frontierSeq] at h
  | succ n =>
    rw [frontierSeq] at h
    by_cases hstop : ((hi.map (fun m => decide (m ≤ i))).getD false) = true
    · rw [if_pos hstop] at h
      exact ⟨[], by injection h with h'; rw [← h']⟩
    · rw [if_neg hstop] at h
      rcases hcall : callR n r fr with e | res
      · simp only [hcall] at h
        exact Except.noConfusion h
      · simp only [hcall] at h
        rcases hfn : filterNew seen res with ⟨newBoards, seen'⟩
        simp only [hfn] at h
        by_cases hnew : newBoards = []
        · rw [if_pos hnew] at h
          exact ⟨[], by injection h with h'; rw [← h']⟩
        · rw [if_neg hnew] at h
          rcases hfs : frontierSeq n r hi (i + 1) newBoards seen' with e | fs2
          · simp only [hfs] at h
            exact Except.noConfusion h
          · simp only [hfs] at h
            injection h with h'
            exact ⟨fs2, h'.symm⟩

theorem repeatLoop_greedy (r : Rule) :
    ∀ (fuel : Nat) (hi : Option Int) (i : Int) (fr : List Board)
      (seen : List (List (Loc × Str))),
      repeatLoop fuel r hi true i fr seen fr =
        match frontierSeq fuel r hi i fr seen with
        | .error e => .error e
        | .ok fs => .ok (fs.getLastD []) := by
  intro fuel
  induction fuel with
  | zero => intro hi i fr seen; rfl
  | succ n ih =>
    intro hi i fr seen
    rw [repeatLoop, frontierSeq]
    by_cases hstop : ((hi.map (fun m => decide (m ≤ i))).getD false) = true
    · rw [if_pos hstop, if_pos hstop]
      rfl
    · rw [if_neg hstop, if_neg hstop]
      rcases hcall : callR n r fr with e | res
      · simp only [hcall]
      · simp only [hcall]
        rcases hfn : filterNew seen res with ⟨newBoards, seen'⟩
        simp only [hfn]
        by_cases hnew : newBoards = []
        · rw [if_pos hnew, if_pos hnew]
          rfl
        · rw [if_neg hnew, if_neg hnew]
          show repeatLoop n r hi true (i + 1) newBoards seen' newBoards = _
          rw [ih]
          rcases hfs : frontierSeq n r hi (i + 1) newBoards seen' with e | fs2
          · simp only [hfs]
          · simp only [hfs]
            obtain ⟨fs', hfs'⟩ := frontierSeq_cons n r hi (i + 1) newBoards seen' fs2 hfs
            subst hfs'
            simp [List.getLastD_cons]

theorem repeatLoop_union (r : Rule) :
    ∀ (fuel : Nat) (hi : Option Int) (i : Int) (fr : List Board)
      (seen : List (List (Loc × Str))) (all : List Board),
      repeatLoop fuel r hi false i fr seen all =
        match frontierSeq fuel r hi i fr seen with
        | .error e => .error e
        | .ok fs => .ok (all ++ catLists fs.tail) := by
  intro fuel
  induction fuel with
  | zero => intro hi i fr seen all; rfl
  | succ n ih =>
    intro hi i fr seen all
    rw [repeatLoop, frontierSeq]
    by_cases hstop : ((hi.map (fun m => decide (m ≤ i))).getD false) = true
    · rw [if_pos hstop, if_pos hstop]
      simp [catLists]
    · rw [if_neg hstop, if_neg hstop]
      rcases hcall : callR n r fr with e | res
      · simp only [hcall]
      · simp only [hcall]
        rcases hfn : filterNew seen res with ⟨newBoards, seen'⟩
        simp only [hfn]
        by_cases hnew : newBoards = []
        · rw [if_pos hnew, if_pos hnew]
          simp [catLists]
        · rw [if_neg hnew, if_neg hnew]
          show repeatLoop n r hi false (i + 1) newBoards seen' (all ++ newBoards) = _
          rw [ih]
          rcases hfs : frontierSeq n r hi (i + 1) newBoards seen' with e | fs2
          · simp only [hfs]
          · simp only [hfs]
            obtain ⟨fs', hfs'⟩ := frontierSeq_cons n r hi (i + 1) newBoards seen' fs2 hfs
            subst hfs'
            simp [catLists, List.append_assoc]

/-- C8: `RepeatRule._apply` computes exactly the semantics the specification
describes: the body is first applied `at_least` times to `[board]` to get
the initial frontier; each further step expands the frontier restricted to
newly-seen fingerprints and stops at the `at_most` cap or when no new
boards appear; the result is the final frontier if greedy, otherwise the
union of every frontier from iteration `at_least` on (deduplicated by
fingerprint). -/
theorem c8_repeat_semantics (fuel : Nat) (r : Rule) (lo : Int) (hi : Option Int)
    (g : Bool) (b : Board) :
    applyR (fuel + 1) (.rep r lo hi g) b =
      match iterN fuel r lo.toNat [b] with
      | .error e => .error e
      | .ok start =>
        match frontierSeq fuel r hi lo start (start.map get_board_key) with
        | .error e => .error e
        | .ok fs => .ok (unique_boards (if g then fs.getLastD [] else catLists fs)) := by
  rw [applyR]
  rcases hit : iterN fuel r lo.toNat [b] with e | start
  · rfl
  · simp only
    cases g with
    | true =>
      rw [repeatLoop_greedy r fuel hi lo start (start.map get_board_key)]
      rcases hfs : frontierSeq fuel r hi lo start (start.map get_board_key) with e | fs
      · simp only [hfs]
      · simp only [hfs, if_pos]
    | false =>
      rw [repeatLoop_union r fuel hi lo start (start.map get_board_key) start]
      rcases hfs : frontierSeq fuel r hi lo start (start.map get_board_key) with e | fs
      · simp only [hfs]
      · simp only [hfs]
        obtain ⟨fs', hfs'⟩ := frontierSeq_cons fuel r hi lo start _ fs hfs
        subst hfs'
        simp [catLists]

end RepeatSemantics

section Normalization

theorem translateBoard_nil_iff (p : Board) (t : Loc) :
    translateBoard p t = [] ↔ p = [] := by
  simp [translateBoard]

theorem anchorLoop_translate : ∀ (p : Board) (c0 : Option Str) (k0 t : Loc),
    anchorLoop (translateBoard p t) c0 (k0.1 - t.1, k0.2 - t.2) =
      ((anchorLoop p c0 k0).1,
       (anchorLoop p c0 k0).2.1 - t.1, (anchorLoop p c0 k0).2.2 - t.2) := by
  intro p
  induction p with
  | nil => intro c0 k0 t; rfl
  | cons e es ih =>
    intro c0 k0 t
    obtain ⟨⟨ex, ey⟩, ec⟩ := e
    show anchorLoop (((ex - t.1, ey - t.2), ec) :: translateBoard es t) c0 _ = _
    rw [anchorLoop, anchorLoop]
    by_cases hneg : ec.head? = some '^'
    · rw [if_pos hneg, if_pos hneg]
      exact ih c0 (ex, ey) t
    · rw [if_neg hneg, if_neg hneg]
      by_cases hbreak : ec.length = 1 ∧ ec ≠ ['.']
      · rw [if_pos hbreak, if_pos hbreak]
      · rw [if_neg hbreak, if_neg hbreak]
        exact ih (some ec) (ex, ey) t

theorem matchB_translate (g : Board) (t : Loc) :
    ∀ (p : Board) (a1 a2 : Int),
      matchB (translateBoard p t) g a1 a2 = matchB p g (a1 - t.1) (a2 - t.2) := by
  intro p
  induction p with
  | nil => intro a1 a2; rfl
  | cons e es ih =>
    intro a1 a2
    show (_ && _) = (_ && _)
    refine congrArg₂ (· && ·) ?_ (ih a1 a2)
    show (substrB ((dictGet g ((e.1.1 - t.1) + a1, (e.1.2 - t.2) + a2)).getD notfound) e.2 !=
        decide (e.2.head? = some '^')) =
      (substrB ((dictGet g (e.1.1 + (a1 - t.1), e.1.2 + (a2 - t.2))).getD notfound) e.2 !=
        decide (e.2.head? = some '^'))
    rw [show ((e.1.1 - t.1) + a1, (e.1.2 - t.2) + a2) =
        (e.1.1 + (a1 - t.1), e.1.2 + (a2 - t.2)) from by
      simp only [Prod.mk.injEq]; omega]

theorem deleteKeys_translate (p : Board) (t : Loc) (o1 o2 : Int) :
    (translateBoard p t).map (fun e => movePoint false (moveSlide (o1 + t.1) (o2 + t.2)) e.1) =
      p.map (fun e => movePoint false (moveSlide o1 o2) e.1) := by
  unfold translateBoard
  rw [List.map_map]
  congr 1
  funext e
  show ((e.1.1 - t.1) + (o1 + t.1), (e.1.2 - t.2) + (o2 + t.2)) = (e.1.1 + o1, e.1.2 + o2)
  simp only [Prod.mk.injEq]
  omega

theorem moveBoard_translate_aux (t : Loc) (o1 o2 : Int) :
    ∀ (r : Board) (acc : Board),
      (translateBoard r t).foldl
          (fun a e => dictInsert a (movePoint true (moveSlide (o1 + t.1) (o2 + t.2)) e.1) e.2) acc =
        r.foldl (fun a e => dictInsert a (movePoint true (moveSlide o1 o2) e.1) e.2) acc := by
  intro r
  induction r with
  | nil => intro acc; rfl
  | cons e es ih =>
    intro acc
    show (translateBoard es t).foldl _
        (dictInsert acc (movePoint true (moveSlide (o1 + t.1) (o2 + t.2)) (e.1.1 - t.1, e.1.2 - t.2)) e.2) = _
    rw [show movePoint true (moveSlide (o1 + t.1) (o2 + t.2)) (e.1.1 - t.1, e.1.2 - t.2) =
        movePoint true (moveSlide o1 o2) e.1 from by
      show ((e.1.1 - t.1) + (o1 + t.1), (e.1.2 - t.2) + (o2 + t.2)) = (e.1.1 + o1, e.1.2 + o2)
      simp only [Prod.mk.injEq]; omega]
    exact ih _

theorem moveBoard_translate (r : Board) (t : Loc) (o1 o2 : Int) :
    moveBoard (moveSlide (o1 + t.1) (o2 + t.2)) (translateBoard r t) =
      moveBoard (moveSlide o1 o2) r :=
  moveBoard_translate_aux t o1 o2 r []

theorem fr_build_translate (p r b : Board) (t : Loc) (o1 o2 : Int) :
    pyUpdate
        (deleteLocs b ((translateBoard p t).map
          (fun e => movePoint false (moveSlide (o1 + t.1) (o2 + t.2)) e.1)))
        (moveBoard (moveSlide (o1 + t.1) (o2 + t.2)) (translateBoard r t)) =
      pyUpdate (deleteLocs b (p.map (fun e => movePoint false (moveSlide o1 o2) e.1)))
        (moveBoard (moveSlide o1 o2) r) := by
  rw [deleteKeys_translate, moveBoard_translate]

theorem find_and_replace_translate (p r b : Board) (t : Loc) :
    okBoards (find_and_replace (translateBoard p t) (translateBoard r t) b) =
      okBoards (find_and_replace p r b) := by
  by_cases hp : p = []
  · subst hp
    rfl
  · obtain ⟨e0, es, rfl⟩ := List.exists_cons_of_ne_nil hp
    rcases hanch : anchorLoop (e0 :: es) none (0, 0) with ⟨copt, kx, ky⟩
    have hA : anchorLoop (translateBoard (e0 :: es) t) none (0, 0) =
        (copt, kx - t.1, ky - t.2) := by
      have h1 : anchorLoop (translateBoard (e0 :: es) t) none ((0 : Int), (0 : Int)) =
          anchorLoop (translateBoard (e0 :: es) t) none (t.1 - t.1, t.2 - t.2) := rfl
      rw [h1, anchorLoop_translate (e0 :: es) none t t,
        show anchorLoop (e0 :: es) none t = anchorLoop (e0 :: es) none (0, 0) from rfl, hanch]
    cases copt with
    | none =>
      have hT : find (translateBoard (e0 :: es) t) b =
          .error (errNoAnchor ++ board_repr (translateBoard (e0 :: es) t)) := by
        unfold find
        rw [if_neg (by simp [translateBoard])]
        simp only [hA]
      have hO : find (e0 :: es) b = .error (errNoAnchor ++ board_repr (e0 :: es)) := by
        unfold find
        rw [if_neg (by simp)]
        simp only [hanch]
      unfold find_and_replace
      rw [hT, hO]
      rfl
    | some c =>
      have hT : find (translateBoard (e0 :: es) t) b =
          .ok (b.filterMap (fun e =>
            if substrB e.2 c && matchB (e0 :: es) b (e.1.1 - kx) (e.1.2 - ky)
            then some (moveSlide ((e.1.1 - kx) + t.1) ((e.1.2 - ky) + t.2)) else none)) := by
        unfold find
        rw [if_neg (by simp [translateBoard])]
        simp only [hA]
        refine congrArg Except.ok (congrArg (fun f => List.filterMap f b) ?_)
        funext e
        have hm : matchB (translateBoard (e0 :: es) t) b (e.1.1 - (kx - t.1)) (e.1.2 - (ky - t.2)) =
            matchB (e0 :: es) b (e.1.1 - kx) (e.1.2 - ky) := by
          rw [matchB_translate,
            show e.1.1 - (kx - t.1) - t.1 = e.1.1 - kx from by omega,
            show e.1.2 - (ky - t.2) - t.2 = e.1.2 - ky from by omega]
        rw [hm,
          show e.1.1 - (kx - t.1) = (e.1.1 - kx) + t.1 from by omega,
          show e.1.2 - (ky - t.2) = (e.1.2 - ky) + t.2 from by omega]
      have hO : find (e0 :: es) b =
          .ok (b.filterMap (fun e =>
            if substrB e.2 c && matchB (e0 :: es) b (e.1.1 - kx) (e.1.2 - ky)
            then some (moveSlide (e.1.1 - kx) (e.1.2 - ky)) else none)) := by
        unfold find
        rw [if_neg (by simp)]
        simp only [hanch]
      unfold find_and_replace
      rw [hT, hO]
      show some _ = some _
      refine congrArg some ?_
      rw [List.map_filterMap, List.map_filterMap]
      refine congrArg (fun f => List.filterMap f b) ?_
      funext e
      by_cases hcond :
          (substrB e.2 c && matchB (e0 :: es) b (e.1.1 - kx) (e.1.2 - ky)) = true
      · rw [if_pos hcond, if_pos hcond]
        show some _ = some _
        congr 1
        exact fr_build_translate (e0 :: es) r b t (e.1.1 - kx) (e.1.2 - ky)
      · rw [if_neg hcond, if_neg hcond]
        rfl

theorem applyR_fr_translate (p r b : Board) (t : Loc) (fuel : Nat) :
    okBoards (applyR fuel (.fr (translateBoard p t) (translateBoard r t)) b) =
      okBoards (applyR fuel (.fr p r) b) := by
  cases fuel with
  | zero => rfl
  | succ n =>
    show okBoards (if translateBoard p t = [] ∧ translateBoard r t = [] then .ok [b]
        else find_and_replace (translateBoard p t) (translateBoard r t) b) =
      okBoards (if p = [] ∧ r = [] then .ok [b] else find_and_replace p r b)
    by_cases hempty : p = [] ∧ r = []
    · rw [if_pos hempty,
        if_pos ⟨(translateBoard_nil_iff p t).mpr hempty.1, (translateBoard_nil_iff r t).mpr hempty.2⟩]
    · rw [if_neg hempty,
        if_neg (fun h => hempty
          ⟨(translateBoard_nil_iff p t).mp h.1, (translateBoard_nil_iff r t).mp h.2⟩)]
      exact find_and_replace_translate p r b t

theorem bounds_foldl_translate (t : Loc) :
    ∀ (es : List (Loc × Str)) (acc : Int × Int × Int × Int),
      (translateBoard es t).foldl boundsStep
          (acc.1 - t.1, acc.2.1 - t.2, acc.2.2.1 - t.1, acc.2.2.2 - t.2) =
        ((es.foldl boundsStep acc).1 - t.1, (es.foldl boundsStep acc).2.1 - t.2,
         (es.foldl boundsStep acc).2.2.1 - t.1, (es.foldl boundsStep acc).2.2.2 - t.2) := by
  intro es
  induction es with
  | nil => intro acc; rfl
  | cons e es ih =>
    intro acc
    show (translateBoard es t).foldl boundsStep
        (boundsStep (acc.1 - t.1, acc.2.1 - t.2, acc.2.2.1 - t.1, acc.2.2.2 - t.2)
          ((e.1.1 - t.1, e.1.2 - t.2), e.2)) = _
    rw [show boundsStep (acc.1 - t.1, acc.2.1 - t.2, acc.2.2.1 - t.1, acc.2.2.2 - t.2)
          ((e.1.1 - t.1, e.1.2 - t.2), e.2) =
        ((boundsStep acc e).1 - t.1, (boundsStep acc e).2.1 - t.2,
         (boundsStep acc e).2.2.1 - t.1, (boundsStep acc e).2.2.2 - t.2) from by
      simp only [boundsStep, Prod.mk.injEq]
      refine ⟨by omega, by omega, by omega, by omega⟩]
    exact ih (boundsStep acc e)

theorem bounds_translate (p : Board) (hp : p ≠ []) (t : Loc) :
    get_board_bounds (translateBoard p t) =
      ((get_board_bounds p).1 - t.1, (get_board_bounds p).2.1 - t.2,
       (get_board_bounds p).2.2.1 - t.1, (get_board_bounds p).2.2.2 - t.2) := by
  obtain ⟨e, es, rfl⟩ := List.exists_cons_of_ne_nil hp
  show (translateBoard es t).foldl boundsStep
      (e.1.1 - t.1, e.1.2 - t.2, e.1.1 - t.1, e.1.2 - t.2) = _
  exact bounds_foldl_translate t es (e.1.1, e.1.2, e.1.1, e.1.2)

/-- C10 (amended): the `FindAndReplaceRule` constructor translates pattern
and replacement jointly by the componentwise minimum of their bounds, the
empty board contributing `(0, 0, 0, 0)` — so when both are non-empty the
combined bounding box of the stored rule starts at the origin — and the
normalization is behavior-preserving: for every board the constructed rule
yields exactly the boards of the `raw=True` rule. -/
theorem c10_normalization (p r : Board) :
    (p ≠ [] → r ≠ [] →
      min (get_board_bounds (patternOf (mkFR p r))).1
          (get_board_bounds (replacementOf (mkFR p r))).1 = 0 ∧
      min (get_board_bounds (patternOf (mkFR p r))).2.1
          (get_board_bounds (replacementOf (mkFR p r))).2.1 = 0) ∧
    ∀ (fuel : Nat) (b : Board),
      okBoards (applyR fuel (mkFR p r) b) = okBoards (applyR fuel (.fr p r) b) := by
  constructor
  · intro hp hr
    simp only [mkFR]
    by_cases hmin : (min (get_board_bounds p).1 (get_board_bounds r).1 ≠ 0 ∨
        min (get_board_bounds p).2.1 (get_board_bounds r).2.1 ≠ 0)
    · rw [if_pos hmin]
      simp only [patternOf, replacementOf]
      rw [bounds_translate p hp, bounds_translate r hr]
      dsimp only
      constructor <;> omega
    · rw [if_neg hmin]
      simp only [patternOf, replacementOf]
      push_neg at hmin
      simpa using hmin
  · intro fuel b
    simp only [mkFR]
    by_cases hmin : (min (get_board_bounds p).1 (get_board_bounds r).1 ≠ 0 ∨
        min (get_board_bounds p).2.1 (get_board_bounds r).2.1 ≠ 0)
    · rw [if_pos hmin]
      exact applyR_fr_translate p r b _ fuel
    · rw [if_neg hmin]

/-- Witness for the amended C10 at a concrete rule and board. -/
theorem c10_normalization_witness :
    (min (get_board_bounds (patternOf (mkFR [((2, 3), ['p'])] [((1, 1), ['.'])]))).1
         (get_board_bounds (replacementOf (mkFR [((2, 3), ['p'])] [((1, 1), ['.'])]))).1 = 0 ∧
     min (get_board_bounds (patternOf (mkFR [((2, 3), ['p'])] [((1, 1), ['.'])]))).2.1
         (get_board_bounds (replacementOf (mkFR [((2, 3), ['p'])] [((1, 1), ['.'])]))).2.1 = 0) ∧
    okBoards (applyR 5 (mkFR [((2, 3), ['p'])] [((1, 1), ['.'])]) [((2, 3), ['p'])]) =
      okBoards (applyR 5 (.fr [((2, 3), ['p'])] [((1, 1), ['.'])]) [((2, 3), ['p'])]) :=
  ⟨(c10_normalization [((2, 3), ['p'])] [((1, 1), ['.'])]).1 (by decide) (by decide),
   (c10_normalization [((2, 3), ['p'])] [((1, 1), ['.'])]).2 5 [((2, 3), ['p'])]⟩

end Normalization

end AlgChess
